import Mathlib

/-!
A shallow embedding of the regex-to-NFA compiler (src/main.rs) and proofs
about it.  The program parses a regular expression into a syntax tree
(external), compiles it to an NFA by Thompson's construction
(`regex_to_nfa`), renumbers the states breadth-first from the start state
(`renumber_states`), and renders the automaton in DOT format (`print_dot`).

Modelling conventions:
* `usize` state ids become `Nat`; the automaton is a list of per-state
  transition lists, exactly as in the source (`Vec<Vec<Transition>>`).
* The Rust builder mutates `&mut Nfa` and aborts by panicking on
  unsupported constructs.  We thread the automaton explicitly and model a
  panic as `Except.error (msg, nfa)`, where `nfa` is the automaton as it
  stood at the moment of the panic (mutations performed before the panic
  have happened) and `msg` is the panic message.
* `renumber_states` loops until its queue is empty; the Lean version uses
  fuel `num_states nfa`, which bounds the number of dequeues: every
  enqueue is guarded by the `queued` marker, so at most one enqueue (and
  hence one dequeue) happens per state.
-/

/-- `enum Transition { Goto(State), Consume(char, State) }` from the source. -/
inductive Transition where
  | goto : Nat → Transition
  | consume : Char → Nat → Transition
deriving DecidableEq

/-- `struct Nfa { states: Vec<Vec<Transition>> }` from the source. -/
structure Nfa where
  states : List (List Transition)
deriving DecidableEq

/-- `Nfa::num_states`. -/
def num_states (nfa : Nfa) : Nat :=
  nfa.states.length

/-- `Nfa::new_state` pushes an empty transition list; the fresh state id is
the old length, which callers read off as `num_states` before the push. -/
def new_state (nfa : Nfa) : Nfa :=
  ⟨nfa.states ++ [[]]⟩

/-- `Nfa::add_transition` appends `t` to state `from`'s transition list. -/
def add_transition (nfa : Nfa) (s : Nat) (t : Transition) : Nfa :=
  ⟨nfa.states.set s (nfa.states.getD s [] ++ [t])⟩

/-- The target state of a transition (either kind), as read off in
`renumber_states`. -/
def targetOf : Transition → Nat
  | .goto t => t
  | .consume _ t => t

/-- `regex_syntax::hir::Literal`: either a unicode scalar or a raw byte. -/
inductive Lit where
  | unicode : Char → Lit
  | byte : Fin 256 → Lit
deriving DecidableEq

/-- `Literal::Unicode(c) => *c, Literal::Byte(b) => *b as char` — the byte
is widened to the char with the same code point. -/
def charOfLit : Lit → Char
  | .unicode c => c
  | .byte b => Char.ofNat b.val

/-- `regex_syntax::hir::RepetitionKind` as matched by the source; the
payload of `Range(_)` is never inspected, so it is dropped. -/
inductive RepKind where
  | zeroOrOne
  | zeroOrMore
  | oneOrMore
  | range
deriving DecidableEq

/-- `regex_syntax::hir::HirKind` as matched by the source.  The payloads of
`Class`, `Anchor` and `WordBoundary` are never inspected (the match arms
panic), so they are dropped; `Group` keeps only its inner tree and
`Repetition` keeps its kind and inner tree, which is all the source reads. -/
inductive Hir where
  | empty
  | class_
  | group : Hir → Hir
  | anchor
  | concat : List Hir → Hir
  | literal : Lit → Hir
  | repetition : RepKind → Hir → Hir
  | alternation : List Hir → Hir
  | wordBoundary

mutual

/-- `regex_to_nfa(&mut Nfa, &Hir, start, end)` from the source.  A panic
(`unimplemented!`) becomes `.error (message, automaton-at-panic)`; the
messages are the panic messages Rust produces. -/
def regex_to_nfa (nfa : Nfa) (r : Hir) (start end_ : Nat) :
    Except (String × Nfa) Nfa :=
  match r with
  | .empty => .ok (add_transition nfa start (.goto end_))
  | .class_ => .error ("not implemented: character classes not supported", nfa)
  | .group g => regex_to_nfa nfa g start end_
  | .anchor => .error ("not implemented: anchors not supported", nfa)
  | .concat xs => regexConcat nfa xs start end_
  | .literal lit => .ok (add_transition nfa start (.consume (charOfLit lit) end_))
  | .repetition .zeroOrOne hir =>
      match regex_to_nfa nfa hir start end_ with
      | .error err => .error err
      | .ok nfa2 => .ok (add_transition nfa2 start (.goto end_))
  | .repetition .zeroOrMore hir =>
      match regex_to_nfa nfa hir start start with
      | .error err => .error err
      | .ok nfa2 => .ok (add_transition nfa2 start (.goto end_))
  | .repetition .oneOrMore hir =>
      match regex_to_nfa nfa hir start end_ with
      | .error err => .error err
      | .ok nfa2 => .ok (add_transition nfa2 end_ (.goto start))
  | .repetition .range _ => .error ("not implemented", nfa)
  | .alternation branches => regexAlt nfa branches start end_
  | .wordBoundary => .error ("not implemented: word boundary not supported", nfa)

/-- The `HirKind::Concat` loop of `regex_to_nfa`: for every subtree except
the last, `next` is a fresh state (`nfa.new_state()`); the last subtree
exits at `end_`; `start` is rebound to `next` after each subtree. -/
def regexConcat (nfa : Nfa) (xs : List Hir) (start end_ : Nat) :
    Except (String × Nfa) Nfa :=
  match xs with
  | [] => .ok nfa
  | [x] => regex_to_nfa nfa x start end_
  | x :: y :: rest =>
      let next := num_states nfa
      match regex_to_nfa (new_state nfa) x start next with
      | .error err => .error err
      | .ok nfa2 => regexConcat nfa2 (y :: rest) next end_

/-- The `HirKind::Alternation` loop of `regex_to_nfa`: every branch is
built with the same `start` and `end_`. -/
def regexAlt (nfa : Nfa) (branches : List Hir) (start end_ : Nat) :
    Except (String × Nfa) Nfa :=
  match branches with
  | [] => .ok nfa
  | b :: bs =>
      match regex_to_nfa nfa b start end_ with
      | .error err => .error err
      | .ok nfa2 => regexAlt nfa2 bs start end_

end

/-- The body of the `while let Some(state) = queue.pop_front()` loop of
`renumber_states`, with explicit fuel bounding the number of dequeues. -/
def renumberLoop (nfa : Nfa) :
    Nat → List Nat → List Bool → List Nat → Nat → List Nat
  | 0, _, _, mapping, _ => mapping
  | _ + 1, [], _, mapping, _ => mapping
  | fuel + 1, state :: rest, queued, mapping, next_id =>
      let mapping1 := mapping.set state next_id
      let p := (nfa.states.getD state []).foldl
        (fun (q : List Nat × List Bool) t =>
          let target := targetOf t
          if q.2.getD target false then q
          else (q.1 ++ [target], q.2.set target true))
        (rest, queued)
      renumberLoop nfa fuel p.1 p.2 mapping1 (next_id + 1)

/-- `renumber_states(&Nfa, start) -> Vec<State>` from the source: dense
mapping initialised to 0, breadth-first walk from `start`, ids assigned in
dequeue order.  Fuel `num_states nfa` suffices: each state is enqueued at
most once thanks to the `queued` markers. -/
def renumber_states (nfa : Nfa) (start : Nat) : List Nat :=
  renumberLoop nfa (num_states nfa) [start]
    ((List.replicate (num_states nfa) false).set start true)
    (List.replicate (num_states nfa) 0) 0

/-- Specification-level model of the breadth-first walk (§4.2 of the
spec): the list of states in dequeue order.  Each dequeued state's
outgoing transition targets are enqueued in exactly the order the
transitions were stored (epsilon and consuming interleaved, no reordering
by kind); a seen marker prevents a state from being enqueued twice. -/
def bfsOrderLoop (nfa : Nfa) : Nat → List Nat → List Bool → List Nat
  | 0, _, _ => []
  | _ + 1, [], _ => []
  | fuel + 1, state :: rest, seen =>
      let p := (nfa.states.getD state []).foldl
        (fun (q : List Nat × List Bool) t =>
          let target := targetOf t
          if q.2.getD target false then q
          else (q.1 ++ [target], q.2.set target true))
        (rest, seen)
      state :: bfsOrderLoop nfa fuel p.1 p.2

/-- The breadth-first dequeue order from `start` (specification model). -/
def bfsOrder (nfa : Nfa) (start : Nat) : List Nat :=
  bfsOrderLoop nfa (num_states nfa) [start]
    ((List.replicate (num_states nfa) false).set start true)

/-- Assign sequential ids, starting at `next_id`, to the states of `order`
in order (specification model: "the first time a state is dequeued it
receives the next sequential canonical id"). -/
def assignFrom (mapping : List Nat) (next_id : Nat) : List Nat → List Nat
  | [] => mapping
  | s :: rest => assignFrom (mapping.set s next_id) (next_id + 1) rest

/-- Specification-level mapping: a dense array, default value 0, holding
each state's position in the breadth-first dequeue order. -/
def mappingOfOrder (n : Nat) (order : List Nat) : List Nat :=
  assignFrom (List.replicate n 0) 0 order

/-- One edge line of `print_dot`. -/
def dotEdge (i : Nat) (t : Transition) : String :=
  match t with
  | .goto to_ => s!"{i} -> {to_} [label=\" \"]"
  | .consume c to_ => s!"{i} -> {to_} [label=\"{c}\"]"

/-- The shape line and edge lines `print_dot` emits for one state. -/
def dotStateLines (end_ : Nat) (p : Nat × List Transition) : List String :=
  let shape := if p.1 = end_ then "doublecircle" else "circle"
  s!"{p.1} [shape={shape}]" :: p.2.map (dotEdge p.1)

/-- `print_dot(&Nfa, &[State], start, end)` from the source, as the list
of lines it prints. -/
def print_dot (nfa : Nfa) (state_mapping : List Nat) (start end_ : Nat) :
    List String :=
  ["digraph \x7b", "rankdir=LR", "\"\" [shape=none]"]
    ++ (List.range (num_states nfa)).map
        (fun state => s!"{state} [label=\"{state_mapping.getD state 0}\"]")
    ++ [s!"\"\" -> {start}"]
    ++ (nfa.states.enum.map (dotStateLines end_)).flatten

/-- Unfolding `renumberLoop` against the specification model: writing the
next sequential id into the dense mapping at each dequeue is the same as
first collecting the dequeue order and then assigning positions. -/
theorem renumberLoop_eq_assign (nfa : Nfa) :
    ∀ (fuel : Nat) (queue : List Nat) (queued : List Bool)
      (mapping : List Nat) (next_id : Nat),
    renumberLoop nfa fuel queue queued mapping next_id =
      assignFrom mapping next_id (bfsOrderLoop nfa fuel queue queued) := by
  intro fuel
  induction fuel with
  | zero =>
      intro queue queued mapping next_id
      simp [renumberLoop, bfsOrderLoop, assignFrom]
  | succ fuel ih =>
      intro queue queued mapping next_id
      cases queue with
      | nil => simp [renumberLoop, bfsOrderLoop, assignFrom]
      | cons s rest =>
          simp only [renumberLoop, bfsOrderLoop, assignFrom]
          exact ih _ _ _ _

/-- `renumber_states` computes exactly the specification-level mapping:
position in breadth-first dequeue order, dense array with default 0. -/
theorem renumber_eq (nfa : Nfa) (start : Nat) :
    renumber_states nfa start =
      mappingOfOrder (num_states nfa) (bfsOrder nfa start) := by
  simp [renumber_states, mappingOfOrder, bfsOrder, renumberLoop_eq_assign]

/-- `assignFrom` leaves entries of states not in the order untouched. -/
theorem assignFrom_getD_of_not_mem :
    ∀ (order mapping : List Nat) (next_id s d : Nat), s ∉ order →
    (assignFrom mapping next_id order).getD s d = mapping.getD s d := by
  intro order
  induction order with
  | nil => intro mapping next_id s d _; simp [assignFrom]
  | cons a rest ih =>
      intro mapping next_id s d hs
      simp only [List.mem_cons, not_or] at hs
      rw [assignFrom, ih _ _ _ _ hs.2]
      simp [List.getD_eq_getElem?_getD, List.getElem?_set_ne (Ne.symm hs.1)]

/-- `assignFrom` over a contiguous range assigns each covered state its
offset in the range. -/
theorem assignFrom_range' :
    ∀ (k a next_id s d : Nat) (mapping : List Nat),
    a ≤ s → s < a + k → s < mapping.length →
    (assignFrom mapping next_id (List.range' a k)).getD s d =
      next_id + (s - a) := by
  intro k
  induction k with
  | zero => intro a next_id s d mapping h1 h2 _; omega
  | succ k ih =>
      intro a next_id s d mapping h1 h2 h3
      rw [show List.range' a (k + 1) = a :: List.range' (a + 1) k from
        List.range'_succ a k 1]
      rw [assignFrom]
      by_cases hsa : s = a
      · subst hsa
        have hnm : s ∉ List.range' (s + 1) k := by
          intro hmem
          obtain ⟨i, _, hi⟩ := List.mem_range'.mp hmem
          omega
        rw [assignFrom_getD_of_not_mem _ _ _ _ _ hnm]
        simp [List.getD_eq_getElem?_getD, List.getElem?_set_self h3]
      · have ha : a + 1 ≤ s := by omega
        rw [ih (a + 1) (next_id + 1) s d (mapping.set a next_id) ha (by omega)
          (by simpa using h3)]
        omega

/-- C5: for every automaton and start state, `renumber_states` performs a
breadth-first traversal from `start`, visiting each dequeued state's
outgoing transition targets in exactly the order the transitions were
stored (epsilon and consuming interleaved, no reordering by kind),
enqueues each state at most once (seen marker), and assigns canonical ids
sequentially starting at 0 in dequeue order: its result is exactly the
dense mapping that sends each state to its position in the breadth-first
dequeue order `bfsOrder`. -/
theorem renumber_states_is_bfs_positions (nfa : Nfa) (start : Nat) :
    renumber_states nfa start =
      mappingOfOrder (num_states nfa) (bfsOrder nfa start) :=
  renumber_eq nfa start

/-- C8 (amended-free): if the state ids already equal their breadth-first
visit order from `start` (the dequeue order is `0, 1, …, k−1`), then
`renumber_states` maps every reachable (visited) state to itself. -/
theorem renumber_identity_on_canonical (nfa : Nfa) (start k : Nat)
    (hord : bfsOrder nfa start = List.range k) (hk : k ≤ num_states nfa)
    (s : Nat) (hs : s ∈ bfsOrder nfa start) :
    (renumber_states nfa start).getD s 0 = s := by
  rw [hord] at hs
  have hsk := List.mem_range.mp hs
  rw [renumber_eq, mappingOfOrder, hord, List.range_eq_range']
  have h := assignFrom_range' k 0 0 s 0 (List.replicate (num_states nfa) 0)
    (Nat.zero_le s) (by omega) (by simpa using lt_of_lt_of_le hsk hk)
  simpa using h

/-- A two-state automaton for the literal `a`, already in canonical
breadth-first numbering. -/
def nfaAB : Nfa := ⟨[[.consume 'a' 1], []]⟩

/-- Witness for C8 at a concrete canonical automaton. -/
theorem renumber_identity_on_canonical_witness :
    (renumber_states nfaAB 0).getD 1 0 = 1 :=
  renumber_identity_on_canonical nfaAB 0 2 (by decide) (by decide) 1 (by decide)

/-- C1 (amended): a state not visited by the breadth-first walk keeps the
initial value 0 in the mapping — indistinguishable from canonical id 0 —
and `print_dot` still emits its node line (it iterates over all states). -/
theorem unreachable_states_default_and_rendered (nfa : Nfa)
    (start end_ s : Nat) (hs : s < num_states nfa)
    (hr : s ∉ bfsOrder nfa start) :
    (renumber_states nfa start).getD s 0 = 0 ∧
    s!"{s} [label=\"{(0 : Nat)}\"]" ∈ print_dot nfa (renumber_states nfa start) start end_ := by
  have h0 : (renumber_states nfa start).getD s 0 = 0 := by
    rw [renumber_eq, mappingOfOrder, assignFrom_getD_of_not_mem _ _ _ _ _ hr]
    simp [List.getD_eq_getElem?_getD, List.getElem?_replicate]
    split <;> simp
  refine ⟨h0, ?_⟩
  have hmem : s!"{s} [label=\"{(renumber_states nfa start).getD s 0}\"]" ∈
      (List.range (num_states nfa)).map
        (fun state => s!"{state} [label=\"{(renumber_states nfa start).getD state 0}\"]") :=
    List.mem_map_of_mem _ (List.mem_range.mpr hs)
  rw [h0] at hmem
  simp only [print_dot, List.append_assoc, List.mem_append]
  exact Or.inr (Or.inl hmem)

/-- An automaton with a state (id 2) that has no incoming transitions and
is not the start state: unreachable however reachability is read. -/
def nfaU : Nfa := ⟨[[.consume 'a' 1], [], [.consume 'b' 1]]⟩

/-- Counterexample to C1 as stated: in `nfaU`, state 2 is unreachable from
start 0 (it is not visited by the walk and no transition targets it), yet
its mapping entry equals 0 — exactly the canonical id of the start state —
and it does appear in the rendered output, with a node line and an edge
line. -/
theorem unreachable_states_counterexample :
    renumber_states nfaU 0 = [0, 1, 0] ∧
    2 ∉ bfsOrder nfaU 0 ∧
    nfaU.states.all (fun ts => ts.all (fun t => targetOf t != 2)) = true ∧
    (renumber_states nfaU 0).getD 2 0 = (renumber_states nfaU 0).getD 0 0 ∧
    "2 [label=\"0\"]" ∈ print_dot nfaU (renumber_states nfaU 0) 0 1 ∧
    "2 -> 1 [label=\"b\"]" ∈ print_dot nfaU (renumber_states nfaU 0) 0 1 := by
  decide

/-- Witness for the amended C1 at the concrete automaton `nfaU`. -/
theorem unreachable_states_default_and_rendered_witness :
    (renumber_states nfaU 0).getD 2 0 = 0 ∧
    "2 [label=\"0\"]" ∈ print_dot nfaU (renumber_states nfaU 0) 0 1 := by
  have h := unreachable_states_default_and_rendered nfaU 0 1 2
    (by decide) (by decide)
  have he : (s!"{(2 : Nat)} [label=\"{(0 : Nat)}\"]" : String) = "2 [label=\"0\"]" := by
    decide
  exact ⟨h.1, he ▸ h.2⟩

deriving instance DecidableEq for Except

/-- C3 (amended): a `Concat` with an empty subtree list adds no states and
no transitions at all — the loop body never runs — so the automaton is
returned unchanged; this is not the `Empty` behaviour, which adds an
epsilon transition from `start` to `end_`. -/
theorem concat_empty_is_noop (nfa : Nfa) (start end_ : Nat) :
    regex_to_nfa nfa (.concat []) start end_ = .ok nfa := by
  simp [regex_to_nfa, regexConcat]

/-- Counterexample to C3 as stated: on a fresh two-state automaton,
building `Concat []` leaves the automaton untouched, while building
`Empty` adds the epsilon transition `start → accept`; the two results
differ. -/
theorem concat_empty_counterexample :
    regex_to_nfa ⟨[[], []]⟩ (.concat []) 0 1 = .ok ⟨[[], []]⟩ ∧
    regex_to_nfa ⟨[[], []]⟩ .empty 0 1 = .ok ⟨[[.goto 1], []]⟩ ∧
    regex_to_nfa ⟨[[], []]⟩ (.concat []) 0 1 ≠
      regex_to_nfa ⟨[[], []]⟩ .empty 0 1 := by
  decide

/-- Is `key` a prefix of the second list? -/
def listHasPre : List Char → List Char → Bool
  | [], _ => true
  | _ :: _, [] => false
  | a :: xs, b :: ys => a == b && listHasPre xs ys

/-- Does `key` occur as a contiguous run inside the second list? -/
def listHasSub (key : List Char) : List Char → Bool
  | [] => listHasPre key []
  | m :: ms => listHasPre key (m :: ms) || listHasSub key ms

/-- Does `msg` contain `key` as a contiguous substring? -/
def strContains (msg key : String) : Bool :=
  listHasSub key.toList msg.toList

/-- C4 (amended): the class, anchor and word-boundary errors carry
diagnostics naming the unsupported construct, but bounded repetition
(`Range`) fails with the bare generic panic message `not implemented`,
which names no construct. -/
theorem unsupported_diagnostics (nfa : Nfa) (start end_ : Nat) (r : Hir) :
    regex_to_nfa nfa .class_ start end_ =
      .error ("not implemented: character classes not supported", nfa) ∧
    regex_to_nfa nfa .anchor start end_ =
      .error ("not implemented: anchors not supported", nfa) ∧
    regex_to_nfa nfa .wordBoundary start end_ =
      .error ("not implemented: word boundary not supported", nfa) ∧
    regex_to_nfa nfa (.repetition .range r) start end_ =
      .error ("not implemented", nfa) ∧
    strContains "not implemented: character classes not supported"
      "character class" = true ∧
    strContains "not implemented: anchors not supported" "anchor" = true ∧
    strContains "not implemented: word boundary not supported"
      "word boundary" = true ∧
    strContains "not implemented" "repetition" = false ∧
    strContains "not implemented" "range" = false ∧
    strContains "not implemented" "bound" = false := by
  refine ⟨by simp [regex_to_nfa], by simp [regex_to_nfa], by simp [regex_to_nfa],
    by simp [regex_to_nfa], by decide, by decide, by decide, by decide,
    by decide, by decide⟩

/-- Counterexample to C4 as stated: the fatal error for a bounded
repetition is the generic `not implemented`, which does not name the
unsupported construct (it mentions neither repetition, nor range, nor
bounds). -/
theorem unsupported_diagnostics_counterexample :
    regex_to_nfa ⟨[[], []]⟩ (.repetition .range .empty) 0 1 =
      .error ("not implemented", ⟨[[], []]⟩) ∧
    strContains "not implemented" "repetition" = false ∧
    strContains "not implemented" "range" = false ∧
    strContains "not implemented" "Range" = false ∧
    strContains "not implemented" "bound" = false := by
  decide

/-- C10: a byte literal `Literal::Byte(b)` is widened with `as char` and
handled exactly like a unicode literal: one consuming transition from
`start` to `end_`, labeled with the character whose code point is `b`. -/
theorem byte_literal_widened (nfa : Nfa) (start end_ : Nat) (b : Fin 256) :
    regex_to_nfa nfa (.literal (.byte b)) start end_ =
      .ok (add_transition nfa start (.consume (Char.ofNat b.val) end_)) ∧
    regex_to_nfa nfa (.literal (.byte b)) start end_ =
      regex_to_nfa nfa (.literal (.unicode (Char.ofNat b.val))) start end_ := by
  constructor <;> simp [regex_to_nfa, charOfLit]

/-- Paths through an automaton: `Trace nfa s w u` holds when there is a
sequence of transitions from state `s` to state `u` whose consuming
transitions read exactly `w` (epsilon moves read nothing). -/
inductive Trace (nfa : Nfa) : Nat → List Char → Nat → Prop where
  | done (s : Nat) : Trace nfa s [] s
  | goto {s t u : Nat} {w : List Char} :
      Transition.goto t ∈ nfa.states.getD s [] → Trace nfa t w u →
      Trace nfa s w u
  | consume {s t u : Nat} {c : Char} {w : List Char} :
      Transition.consume c t ∈ nfa.states.getD s [] → Trace nfa t w u →
      Trace nfa s (c :: w) u

/-- The automaton the source builds for `a+`: consume `a` from 0 to 1,
then an epsilon back-edge from 1 to 0. -/
def nfaAplus : Nfa := ⟨[[.consume 'a' 1], [.goto 0]]⟩

/-- Every path through `nfaAplus` reads only the letter `a`, and a path
from start 0 to accept 1 reads at least one letter. -/
theorem aplus_trace_inv (s : Nat) (w : List Char) (u : Nat)
    (h : Trace nfaAplus s w u) :
    (∀ c ∈ w, c = 'a') ∧ (s = 0 → u = 1 → w ≠ []) := by
  induction h with
  | done s =>
      refine ⟨by simp, ?_⟩
      intro h1 h2
      rw [h1] at h2
      simp at h2
  | @goto s t u w hmem _ ih =>
      rcases s with _ | _ | s
      · simp [nfaAplus] at hmem
      · have ht0 : t = 0 := by simpa [nfaAplus] using hmem
        refine ⟨ih.1, ?_⟩
        intro h1
        simp at h1
      · simp [nfaAplus] at hmem
  | @consume s t u c w hmem _ ih =>
      rcases s with _ | _ | s
      · have hct : c = 'a' ∧ t = 1 := by simpa [nfaAplus] using hmem
        refine ⟨?_, by simp⟩
        intro c' hc'
        rcases List.mem_cons.mp hc' with h | h
        · rw [h, hct.1]
        · exact ih.1 c' h
      · simp [nfaAplus] at hmem
      · simp [nfaAplus] at hmem

/-- `nfaAplus` accepts `a` repeated any positive number of times. -/
theorem aplus_trace_replicate (k : Nat) :
    Trace nfaAplus 0 (List.replicate (k + 1) 'a') 1 := by
  induction k with
  | zero =>
      refine Trace.consume ?_ (Trace.done 1)
      simp [nfaAplus]
  | succ k ih =>
      rw [show List.replicate (k + 2) 'a' = 'a' :: List.replicate (k + 1) 'a'
        from rfl]
      refine @Trace.consume nfaAplus 0 1 1 'a' (List.replicate (k + 1) 'a') ?_
        (@Trace.goto nfaAplus 1 0 1 (List.replicate (k + 1) 'a') ?_ ih)
      · simp [nfaAplus]
      · simp [nfaAplus]

/-- C7: `OneOrMore` builds the inner subtree exactly once from `start` to
`end_`, then adds a single epsilon back-edge `end_ → start`; for `a+` the
resulting automaton accepts exactly the nonempty words over `a` — every
start-to-accept path consumes at least one `a`, and there is no
zero-consumption path. -/
theorem one_or_more_back_edge :
    (∀ (nfa : Nfa) (r : Hir) (start end_ : Nat),
      regex_to_nfa nfa (.repetition .oneOrMore r) start end_ =
        Except.map (fun m => add_transition m end_ (.goto start))
          (regex_to_nfa nfa r start end_)) ∧
    regex_to_nfa ⟨[[], []]⟩
        (.repetition .oneOrMore (.literal (.unicode 'a'))) 0 1 =
      .ok nfaAplus ∧
    (∀ w, Trace nfaAplus 0 w 1 ↔ (w ≠ [] ∧ ∀ c ∈ w, c = 'a')) := by
  refine ⟨?_, by decide, ?_⟩
  · intro nfa r start end_
    cases h : regex_to_nfa nfa r start end_ <;>
      simp [regex_to_nfa, h, Except.map]
  · intro w
    constructor
    · intro h
      have hh := aplus_trace_inv 0 w 1 h
      exact ⟨hh.2 rfl rfl, hh.1⟩
    · rintro ⟨hne, hall⟩
      have hrep : w = List.replicate w.length 'a' :=
        List.eq_replicate_of_mem hall
      cases w with
      | nil => exact absurd rfl hne
      | cons c w' =>
          rw [hrep]
          simpa using aplus_trace_replicate w'.length

mutual

/-- A syntax tree contains a character-class, anchor, word-boundary or
bounded-repetition (`Range`) node somewhere. -/
def hasUnsupported : Hir → Bool
  | .empty => false
  | .class_ => true
  | .group g => hasUnsupported g
  | .anchor => true
  | .concat xs => hasUnsupportedList xs
  | .literal _ => false
  | .repetition .range _ => true
  | .repetition .zeroOrOne r => hasUnsupported r
  | .repetition .zeroOrMore r => hasUnsupported r
  | .repetition .oneOrMore r => hasUnsupported r
  | .alternation xs => hasUnsupportedList xs
  | .wordBoundary => true

/-- Does any tree in the list contain an unsupported node? -/
def hasUnsupportedList : List Hir → Bool
  | [] => false
  | x :: xs => hasUnsupported x || hasUnsupportedList xs

end

/-- On any tree containing an unsupported node, the builder fails
(strong induction on the size of the tree). -/
theorem build_error_aux (n : Nat) : ∀ (r : Hir), sizeOf r ≤ n →
    ∀ (nfa : Nfa) (start end_ : Nat), hasUnsupported r = true →
    ∃ msg nfa2, regex_to_nfa nfa r start end_ = .error (msg, nfa2) := by
  induction n using Nat.strong_induction_on with
  | _ n IH =>
    intro r hsz nfa start end_ hu
    cases r with
    | empty => simp [hasUnsupported] at hu
    | literal lit => simp [hasUnsupported] at hu
    | class_ =>
        exact ⟨"not implemented: character classes not supported", nfa,
          by simp [regex_to_nfa]⟩
    | anchor =>
        exact ⟨"not implemented: anchors not supported", nfa,
          by simp [regex_to_nfa]⟩
    | wordBoundary =>
        exact ⟨"not implemented: word boundary not supported", nfa,
          by simp [regex_to_nfa]⟩
    | group g =>
        have hg : hasUnsupported g = true := by simpa [hasUnsupported] using hu
        have hlt : sizeOf g < n := by
          simp only [Hir.group.sizeOf_spec] at hsz; omega
        obtain ⟨msg, nfa2, hmsg⟩ :=
          IH (sizeOf g) hlt g le_rfl nfa start end_ hg
        exact ⟨msg, nfa2, by simpa [regex_to_nfa] using hmsg⟩
    | repetition k r2 =>
        cases k with
        | range => exact ⟨"not implemented", nfa, by simp [regex_to_nfa]⟩
        | zeroOrOne =>
            have hr : hasUnsupported r2 = true := by
              simpa [hasUnsupported] using hu
            have hlt : sizeOf r2 < n := by
              simp only [Hir.repetition.sizeOf_spec] at hsz; omega
            obtain ⟨msg, nfa2, hmsg⟩ :=
              IH (sizeOf r2) hlt r2 le_rfl nfa start end_ hr
            exact ⟨msg, nfa2, by simp [regex_to_nfa, hmsg]⟩
        | zeroOrMore =>
            have hr : hasUnsupported r2 = true := by
              simpa [hasUnsupported] using hu
            have hlt : sizeOf r2 < n := by
              simp only [Hir.repetition.sizeOf_spec] at hsz; omega
            obtain ⟨msg, nfa2, hmsg⟩ :=
              IH (sizeOf r2) hlt r2 le_rfl nfa start start hr
            exact ⟨msg, nfa2, by simp [regex_to_nfa, hmsg]⟩
        | oneOrMore =>
            have hr : hasUnsupported r2 = true := by
              simpa [hasUnsupported] using hu
            have hlt : sizeOf r2 < n := by
              simp only [Hir.repetition.sizeOf_spec] at hsz; omega
            obtain ⟨msg, nfa2, hmsg⟩ :=
              IH (sizeOf r2) hlt r2 le_rfl nfa start end_ hr
            exact ⟨msg, nfa2, by simp [regex_to_nfa, hmsg]⟩
    | concat xs =>
        cases xs with
        | nil => simp [hasUnsupported, hasUnsupportedList] at hu
        | cons x xs' =>
            cases xs' with
            | nil =>
                have hx : hasUnsupported x = true := by
                  simpa [hasUnsupported, hasUnsupportedList] using hu
                have hlt : sizeOf x < n := by
                  simp only [Hir.concat.sizeOf_spec, List.cons.sizeOf_spec]
                    at hsz
                  omega
                obtain ⟨msg, nfa2, hmsg⟩ :=
                  IH (sizeOf x) hlt x le_rfl nfa start end_ hx
                exact ⟨msg, nfa2, by simpa [regex_to_nfa, regexConcat] using hmsg⟩
            | cons y rest =>
                cases hin :
                    regex_to_nfa (new_state nfa) x start (num_states nfa) with
                | error err =>
                    exact ⟨err.1, err.2,
                      by simp [regex_to_nfa, regexConcat, hin]⟩
                | ok nfam =>
                    have hxu : hasUnsupported x = false := by
                      by_contra hxx
                      have hx : hasUnsupported x = true := by
                        simpa using hxx
                      have hlt : sizeOf x < n := by
                        simp only [Hir.concat.sizeOf_spec,
                          List.cons.sizeOf_spec] at hsz
                        omega
                      obtain ⟨msg, nfa2, hmsg⟩ := IH (sizeOf x) hlt x le_rfl
                        (new_state nfa) start (num_states nfa) hx
                      rw [hin] at hmsg
                      exact absurd hmsg (by simp)
                    have hrest : hasUnsupported (Hir.concat (y :: rest)) = true := by
                      simp only [hasUnsupported, hasUnsupportedList, hxu,
                        Bool.false_or] at hu ⊢
                      exact hu
                    have hlt : sizeOf (Hir.concat (y :: rest)) < n := by
                      simp only [Hir.concat.sizeOf_spec, List.cons.sizeOf_spec]
                        at hsz ⊢
                      omega
                    obtain ⟨msg, nfa2, hmsg⟩ :=
                      IH (sizeOf (Hir.concat (y :: rest))) hlt
                        (Hir.concat (y :: rest)) le_rfl nfam
                        (num_states nfa) end_ hrest
                    refine ⟨msg, nfa2, ?_⟩
                    simp only [regex_to_nfa, regexConcat, hin] at hmsg ⊢
                    exact hmsg
    | alternation xs =>
        cases xs with
        | nil => simp [hasUnsupported, hasUnsupportedList] at hu
        | cons b bs =>
            cases hin : regex_to_nfa nfa b start end_ with
            | error err =>
                exact ⟨err.1, err.2, by simp [regex_to_nfa, regexAlt, hin]⟩
            | ok nfam =>
                have hbu : hasUnsupported b = false := by
                  by_contra hbb
                  have hb : hasUnsupported b = true := by simpa using hbb
                  have hlt : sizeOf b < n := by
                    simp only [Hir.alternation.sizeOf_spec,
                      List.cons.sizeOf_spec] at hsz
                    omega
                  obtain ⟨msg, nfa2, hmsg⟩ :=
                    IH (sizeOf b) hlt b le_rfl nfa start end_ hb
                  rw [hin] at hmsg
                  exact absurd hmsg (by simp)
                have hrest : hasUnsupported (Hir.alternation bs) = true := by
                  simp only [hasUnsupported, hasUnsupportedList, hbu,
                    Bool.false_or] at hu ⊢
                  exact hu
                have hlt : sizeOf (Hir.alternation bs) < n := by
                  simp only [Hir.alternation.sizeOf_spec,
                    List.cons.sizeOf_spec] at hsz ⊢
                  omega
                obtain ⟨msg, nfa2, hmsg⟩ :=
                  IH (sizeOf (Hir.alternation bs)) hlt (Hir.alternation bs)
                    le_rfl nfam start end_ hrest
                refine ⟨msg, nfa2, ?_⟩
                simp only [regex_to_nfa, regexAlt, hin] at hmsg ⊢
                exact hmsg

/-- C2 (amended): for every syntax tree containing a character-class,
anchor, word-boundary, or bounded-repetition (`Range`) node, the builder
fails with a fatal unsupported-construct error; however, states and
transitions added before the failing node are retained in the automaton
the aborted call leaves behind (the abort does not roll anything back) —
no automaton is rendered only because the process dies. -/
theorem unsupported_build_fails (r : Hir) (nfa : Nfa) (start end_ : Nat)
    (hu : hasUnsupported r = true) :
    ∃ msg nfa2, regex_to_nfa nfa r start end_ = .error (msg, nfa2) :=
  build_error_aux (sizeOf r) r le_rfl nfa start end_ hu

/-- Witness for the amended C2 at a concrete tree. -/
theorem unsupported_build_fails_witness :
    hasUnsupported (.concat [.literal (.unicode 'a'), .class_]) = true ∧
    ∃ msg nfa2,
      regex_to_nfa ⟨[[], []]⟩ (.concat [.literal (.unicode 'a'), .class_])
        0 1 = .error (msg, nfa2) :=
  ⟨by decide,
   unsupported_build_fails (.concat [.literal (.unicode 'a'), .class_])
     ⟨[[], []]⟩ 0 1 (by decide)⟩

/-- Counterexample to C2 as stated: building `a[…]` (a literal followed by
a character class) from a fresh two-state automaton fails, but the
automaton carried at the moment of the abort is not the unchanged input —
the aborted call had already allocated a fresh state (3 states instead of
2) and added the consuming transition for the literal. -/
theorem partial_automaton_counterexample :
    regex_to_nfa ⟨[[], []]⟩ (.concat [.literal (.unicode 'a'), .class_]) 0 1 =
      .error ("not implemented: character classes not supported",
        ⟨[[.consume 'a' 2], [], []]⟩) ∧
    (⟨[[.consume 'a' 2], [], []]⟩ : Nfa) ≠ ⟨[[], []]⟩ ∧
    num_states ⟨[[.consume 'a' 2], [], []]⟩ ≠ num_states (⟨[[], []]⟩ : Nfa) := by
  decide

/-- The no-dangling-edges invariant: every transition's target refers to a
state that exists in the automaton. -/
def WF (nfa : Nfa) : Prop :=
  ∀ ts ∈ nfa.states, ∀ t ∈ ts, targetOf t < num_states nfa

instance decidableWF (nfa : Nfa) : Decidable (WF nfa) :=
  inferInstanceAs
    (Decidable (∀ ts ∈ nfa.states, ∀ t ∈ ts, targetOf t < num_states nfa))

theorem num_states_add (nfa : Nfa) (s : Nat) (t : Transition) :
    num_states (add_transition nfa s t) = num_states nfa := by
  simp [add_transition, num_states]

theorem num_states_new (nfa : Nfa) :
    num_states (new_state nfa) = num_states nfa + 1 := by
  simp [new_state, num_states]

/-- Allocating a state preserves the invariant. -/
theorem WF_new {nfa : Nfa} (h : WF nfa) : WF (new_state nfa) := by
  intro ts hts t ht
  rw [num_states_new]
  rcases List.mem_append.mp hts with h1 | h1
  · exact Nat.lt_succ_of_lt (h ts h1 t ht)
  · rw [List.mem_singleton.mp h1] at ht
    simp at ht

/-- Appending a transition whose target exists preserves the invariant. -/
theorem WF_add {nfa : Nfa} {s : Nat} {t : Transition} (h : WF nfa)
    (htgt : targetOf t < num_states nfa) : WF (add_transition nfa s t) := by
  intro ts hts u hu
  rw [num_states_add]
  rcases List.mem_or_eq_of_mem_set hts with h1 | h1
  · exact h ts h1 u hu
  · rw [h1] at hu
    rcases List.mem_append.mp hu with h2 | h2
    · by_cases hs : s < nfa.states.length
      · have hgm : nfa.states.getD s [] ∈ nfa.states := by
          rw [List.getD_eq_getElem?_getD, List.getElem?_eq_getElem hs]
          exact List.getElem_mem hs
        exact h _ hgm u h2
      · rw [List.getD_eq_getElem?_getD,
          List.getElem?_eq_none (Nat.le_of_not_lt hs)] at h2
        simp at h2
    · rw [List.mem_singleton.mp h2]
      exact htgt

/-- The builder preserves the no-dangling-edges invariant and never
removes states (strong induction on the size of the tree). -/
theorem build_WF_aux (n : Nat) : ∀ (r : Hir), sizeOf r ≤ n →
    ∀ (nfa : Nfa) (start end_ : Nat) (nfa2 : Nfa),
    WF nfa → start < num_states nfa → end_ < num_states nfa →
    regex_to_nfa nfa r start end_ = .ok nfa2 →
    WF nfa2 ∧ num_states nfa ≤ num_states nfa2 := by
  induction n using Nat.strong_induction_on with
  | _ n IH =>
    intro r hsz nfa start end_ nfa2 hwf hs he hok
    cases r with
    | empty =>
        simp only [regex_to_nfa, Except.ok.injEq] at hok
        rw [← hok]
        exact ⟨WF_add hwf (by simpa [targetOf] using he),
          le_of_eq (num_states_add nfa start _).symm⟩
    | literal lit =>
        simp only [regex_to_nfa, Except.ok.injEq] at hok
        rw [← hok]
        exact ⟨WF_add hwf (by simpa [targetOf] using he),
          le_of_eq (num_states_add nfa start _).symm⟩
    | class_ => simp [regex_to_nfa] at hok
    | anchor => simp [regex_to_nfa] at hok
    | wordBoundary => simp [regex_to_nfa] at hok
    | group g =>
        have hok2 : regex_to_nfa nfa g start end_ = .ok nfa2 := by
          simpa [regex_to_nfa] using hok
        have hlt : sizeOf g < n := by
          simp only [Hir.group.sizeOf_spec] at hsz; omega
        exact IH (sizeOf g) hlt g le_rfl nfa start end_ nfa2 hwf hs he hok2
    | repetition k r2 =>
        cases k with
        | range => simp [regex_to_nfa] at hok
        | zeroOrOne =>
            simp only [regex_to_nfa] at hok
            cases hin : regex_to_nfa nfa r2 start end_ with
            | error err => rw [hin] at hok; simp at hok
            | ok nfam =>
                rw [hin] at hok
                simp only [Except.ok.injEq] at hok
                have hlt : sizeOf r2 < n := by
                  simp only [Hir.repetition.sizeOf_spec] at hsz; omega
                have h1 := IH (sizeOf r2) hlt r2 le_rfl nfa start end_ nfam
                  hwf hs he hin
                rw [← hok]
                refine ⟨WF_add h1.1 ?_, ?_⟩
                · simp only [targetOf]; omega
                · rw [num_states_add]; exact h1.2
        | zeroOrMore =>
            simp only [regex_to_nfa] at hok
            cases hin : regex_to_nfa nfa r2 start start with
            | error err => rw [hin] at hok; simp at hok
            | ok nfam =>
                rw [hin] at hok
                simp only [Except.ok.injEq] at hok
                have hlt : sizeOf r2 < n := by
                  simp only [Hir.repetition.sizeOf_spec] at hsz; omega
                have h1 := IH (sizeOf r2) hlt r2 le_rfl nfa start start nfam
                  hwf hs hs hin
                rw [← hok]
                refine ⟨WF_add h1.1 ?_, ?_⟩
                · simp only [targetOf]; omega
                · rw [num_states_add]; exact h1.2
        | oneOrMore =>
            simp only [regex_to_nfa] at hok
            cases hin : regex_to_nfa nfa r2 start end_ with
            | error err => rw [hin] at hok; simp at hok
            | ok nfam =>
                rw [hin] at hok
                simp only [Except.ok.injEq] at hok
                have hlt : sizeOf r2 < n := by
                  simp only [Hir.repetition.sizeOf_spec] at hsz; omega
                have h1 := IH (sizeOf r2) hlt r2 le_rfl nfa start end_ nfam
                  hwf hs he hin
                rw [← hok]
                refine ⟨WF_add h1.1 ?_, ?_⟩
                · simp only [targetOf]; omega
                · rw [num_states_add]; exact h1.2
    | concat xs =>
        cases xs with
        | nil =>
            simp only [regex_to_nfa, regexConcat, Except.ok.injEq] at hok
            rw [← hok]
            exact ⟨hwf, le_rfl⟩
        | cons x xs' =>
            cases xs' with
            | nil =>
                have hok2 : regex_to_nfa nfa x start end_ = .ok nfa2 := by
                  simpa [regex_to_nfa, regexConcat] using hok
                have hlt : sizeOf x < n := by
                  simp only [Hir.concat.sizeOf_spec, List.cons.sizeOf_spec]
                    at hsz
                  omega
                exact IH (sizeOf x) hlt x le_rfl nfa start end_ nfa2
                  hwf hs he hok2
            | cons y rest =>
                simp only [regex_to_nfa, regexConcat] at hok
                cases hin :
                    regex_to_nfa (new_state nfa) x start (num_states nfa) with
                | error err => rw [hin] at hok; simp at hok
                | ok nfam =>
                    rw [hin] at hok
                    have hok3 : regex_to_nfa nfam (.concat (y :: rest))
                        (num_states nfa) end_ = .ok nfa2 := by
                      simpa [regex_to_nfa] using hok
                    have hltx : sizeOf x < n := by
                      simp only [Hir.concat.sizeOf_spec, List.cons.sizeOf_spec]
                        at hsz
                      omega
                    have h1 := IH (sizeOf x) hltx x le_rfl (new_state nfa)
                      start (num_states nfa) nfam (WF_new hwf)
                      (by rw [num_states_new]; omega)
                      (by rw [num_states_new]; omega) hin
                    have hmono : num_states nfa + 1 ≤ num_states nfam := by
                      have := h1.2
                      rw [num_states_new] at this
                      exact this
                    have hltc : sizeOf (Hir.concat (y :: rest)) < n := by
                      simp only [Hir.concat.sizeOf_spec, List.cons.sizeOf_spec]
                        at hsz ⊢
                      omega
                    have h2 := IH (sizeOf (Hir.concat (y :: rest))) hltc
                      (Hir.concat (y :: rest)) le_rfl nfam (num_states nfa)
                      end_ nfa2 h1.1 (by omega) (by omega) hok3
                    exact ⟨h2.1, by omega⟩
    | alternation xs =>
        cases xs with
        | nil =>
            simp only [regex_to_nfa, regexAlt, Except.ok.injEq] at hok
            rw [← hok]
            exact ⟨hwf, le_rfl⟩
        | cons b bs =>
            simp only [regex_to_nfa, regexAlt] at hok
            cases hin : regex_to_nfa nfa b start end_ with
            | error err => rw [hin] at hok; simp at hok
            | ok nfam =>
                rw [hin] at hok
                have hok3 : regex_to_nfa nfam (.alternation bs) start end_ =
                    .ok nfa2 := by
                  simpa [regex_to_nfa] using hok
                have hltb : sizeOf b < n := by
                  simp only [Hir.alternation.sizeOf_spec,
                    List.cons.sizeOf_spec] at hsz
                  omega
                have h1 := IH (sizeOf b) hltb b le_rfl nfa start end_ nfam
                  hwf hs he hin
                have hlta : sizeOf (Hir.alternation bs) < n := by
                  simp only [Hir.alternation.sizeOf_spec,
                    List.cons.sizeOf_spec] at hsz ⊢
                  omega
                have h2 := IH (sizeOf (Hir.alternation bs)) hlta
                  (Hir.alternation bs) le_rfl nfam start end_ nfa2 h1.1
                  (by omega) (by omega) hok3
                exact ⟨h2.1, by omega⟩

/-- C9: when the caller-supplied start and accept states exist and the
input automaton has no dangling edges, every automaton the builder
returns has no dangling edges; moreover the invariant is preserved by the
state-allocation and transition-append operations themselves. -/
theorem no_dangling_edges (r : Hir) (nfa : Nfa) (start end_ : Nat)
    (nfa2 : Nfa) (hwf : WF nfa) (hs : start < num_states nfa)
    (he : end_ < num_states nfa)
    (hok : regex_to_nfa nfa r start end_ = .ok nfa2) :
    WF nfa2 ∧
    (∀ m : Nfa, WF m → WF (new_state m)) ∧
    (∀ (m : Nfa) (q : Nat) (t : Transition),
      WF m → targetOf t < num_states m → WF (add_transition m q t)) :=
  ⟨(build_WF_aux (sizeOf r) r le_rfl nfa start end_ nfa2 hwf hs he hok).1,
   fun _ hm => WF_new hm, fun _ _ _ hm ht => WF_add hm ht⟩

/-- Witness for C9 at a concrete build. -/
theorem no_dangling_edges_witness : WF ⟨[[Transition.consume 'a' 1], []]⟩ :=
  (no_dangling_edges (.literal (.unicode 'a')) ⟨[[], []]⟩ 0 1
    ⟨[[Transition.consume 'a' 1], []]⟩ (by decide) (by decide) (by decide)
    (by decide)).1

/-- What the `Concat` loop does on a list of literals, written as a
recursion over the list (mirrors `regexConcat` on literal subtrees). -/
def appendChain : Nfa → List Lit → Nat → Nat → Nfa
  | nfa, [], _, _ => nfa
  | nfa, [l], start, e => add_transition nfa start (.consume (charOfLit l) e)
  | nfa, l :: l2 :: ls, start, e =>
      appendChain
        (add_transition (new_state nfa) start
          (.consume (charOfLit l) (num_states nfa)))
        (l2 :: ls) (num_states nfa) e

/-- The transition lists of the fresh intermediate states of a literal
chain: state `base + i` carries exactly one consuming transition, to
`base + i + 1`, except the last one, which exits to `e`. -/
def chainStates : List Lit → Nat → Nat → List (List Transition)
  | [], _, _ => []
  | l :: ls, base, e =>
      [Transition.consume (charOfLit l) (if ls.isEmpty then e else base + 1)]
        :: chainStates ls (base + 1) e

/-- `regexConcat` on literal subtrees never fails and acts as
`appendChain`. -/
theorem regexConcat_literals :
    ∀ (ls : List Lit) (nfa : Nfa) (start e : Nat),
    regexConcat nfa (ls.map Hir.literal) start e =
      .ok (appendChain nfa ls start e) := by
  intro ls
  induction ls with
  | nil => intro nfa start e; simp [regexConcat, appendChain]
  | cons l ls ih =>
      intro nfa start e
      cases ls with
      | nil => simp [regexConcat, regex_to_nfa, appendChain]
      | cons l2 ls2 =>
          simp only [List.map_cons]
          simp only [regexConcat, regex_to_nfa, appendChain]
          exact ih _ _ _

/-- Element at the seam of an append. -/
theorem getD_append_length (pre : List (List Transition))
    (x : List Transition) (rest : List (List Transition)) :
    (pre ++ x :: rest).getD pre.length [] = x := by
  rw [List.getD_eq_getElem?_getD, List.getElem?_append_right le_rfl]
  simp

/-- The shape of the automaton after a (nonempty) literal chain is
appended: the entry transition is added at `start`, and each intermediate
state allocated by the loop holds exactly one consuming transition. -/
theorem appendChain_states :
    ∀ (ls : List Lit) (l : Lit) (nfa : Nfa) (start e : Nat),
    start < nfa.states.length →
    appendChain nfa (l :: ls) start e =
      ⟨nfa.states.set start (nfa.states.getD start [] ++
          [Transition.consume (charOfLit l)
            (if ls.isEmpty then e else nfa.states.length)]) ++
        chainStates ls nfa.states.length e⟩ := by
  intro ls
  induction ls with
  | nil =>
      intro l nfa start e _
      simp [appendChain, add_transition, chainStates]
  | cons l2 ls2 ih =>
      intro l nfa start e hstart
      simp only [appendChain, num_states]
      have hset : (add_transition (new_state nfa) start
          (Transition.consume (charOfLit l) nfa.states.length)).states =
          nfa.states.set start (nfa.states.getD start [] ++
            [Transition.consume (charOfLit l) nfa.states.length]) ++ [[]] := by
        simp only [add_transition, new_state]
        rw [List.getD_eq_getElem?_getD, List.getElem?_append_left hstart,
          ← List.getD_eq_getElem?_getD, List.set_append]
        simp [hstart]
      have hlen : (add_transition (new_state nfa) start
          (Transition.consume (charOfLit l) nfa.states.length)).states.length =
          nfa.states.length + 1 := by
        rw [hset]
        simp
      rw [ih l2 _ nfa.states.length e (by omega)]
      rw [hlen, hset]
      have hgd : ((nfa.states.set start (nfa.states.getD start [] ++
          [Transition.consume (charOfLit l) nfa.states.length]) ++
          [[]]).getD nfa.states.length []) = ([] : List Transition) := by
        have h := getD_append_length (nfa.states.set start
          (nfa.states.getD start [] ++
            [Transition.consume (charOfLit l) nfa.states.length])) [] []
        rw [List.length_set] at h
        exact h
      rw [hgd]
      have hsetm : ∀ v : List Transition,
          ((nfa.states.set start (nfa.states.getD start [] ++
            [Transition.consume (charOfLit l) nfa.states.length]) ++
            [[]]).set nfa.states.length v) =
          nfa.states.set start (nfa.states.getD start [] ++
            [Transition.consume (charOfLit l) nfa.states.length]) ++ [v] := by
        intro v
        rw [List.set_append, List.length_set]
        simp
      rw [List.nil_append, hsetm]
      rw [show (l2 :: ls2).isEmpty = false from rfl]
      simp only [Bool.false_eq_true, if_false, chainStates]
      simp

/-- Number of consuming transitions in one transition list. -/
def countConsume (ts : List Transition) : Nat :=
  ts.countP (fun t => match t with
    | .consume _ _ => true
    | .goto _ => false)

/-- Number of epsilon transitions in one transition list. -/
def countGoto (ts : List Transition) : Nat :=
  ts.countP (fun t => match t with
    | .goto _ => true
    | .consume _ _ => false)

/-- Total number of consuming transitions in the automaton. -/
def numConsuming (nfa : Nfa) : Nat :=
  (nfa.states.map countConsume).sum

/-- Total number of epsilon transitions in the automaton. -/
def numEpsilon (nfa : Nfa) : Nat :=
  (nfa.states.map countGoto).sum

/-- Follow the unique outgoing transitions for a given number of steps:
succeeds only when every state along the way has exactly one outgoing
transition and it is consuming, returning the labels read and the state
reached — i.e. exactly when the states form a single consuming path. -/
def pathLabels (nfa : Nfa) : Nat → Nat → Option (List Char × Nat)
  | s, 0 => some ([], s)
  | s, steps + 1 =>
      match nfa.states.getD s [] with
      | [Transition.consume c t] =>
          match pathLabels nfa t steps with
          | some (cs, u) => some (c :: cs, u)
          | none => none
      | _ => none

theorem chainStates_length :
    ∀ (ls : List Lit) (base e : Nat), (chainStates ls base e).length = ls.length := by
  intro ls
  induction ls with
  | nil => intro base e; simp [chainStates]
  | cons l ls ih => intro base e; simp [chainStates, ih]

theorem chainStates_consume_sum :
    ∀ (ls : List Lit) (base e : Nat),
    ((chainStates ls base e).map countConsume).sum = ls.length := by
  intro ls
  induction ls with
  | nil => intro base e; simp [chainStates]
  | cons l ls ih =>
      intro base e
      simp [chainStates, countConsume, ih]
      omega

theorem chainStates_goto_sum :
    ∀ (ls : List Lit) (base e : Nat),
    ((chainStates ls base e).map countGoto).sum = 0 := by
  intro ls
  induction ls with
  | nil => intro base e; simp [chainStates]
  | cons l ls ih =>
      intro base e
      simp [chainStates, countGoto, ih]

/-- Unfolding one step of `pathLabels` at a state with exactly one
outgoing consuming transition. -/
theorem pathLabels_step (nfa : Nfa) (s : Nat) (c : Char) (t : Nat)
    (steps : Nat) (h : nfa.states.getD s [] = [Transition.consume c t]) :
    pathLabels nfa s (steps + 1) =
      Option.map (fun p => (c :: p.1, p.2)) (pathLabels nfa t steps) := by
  simp only [pathLabels, h]
  cases pathLabels nfa t steps with
  | none => rfl
  | some p => rfl

/-- Following the chain from its first intermediate state reads the
remaining labels and exits at `e`. -/
theorem chainStates_path :
    ∀ (ls : List Lit) (pre : List (List Transition)) (e : Nat), ls ≠ [] →
    pathLabels ⟨pre ++ chainStates ls pre.length e⟩ pre.length ls.length =
      some (ls.map charOfLit, e) := by
  intro ls
  induction ls with
  | nil => intro pre e h; exact absurd rfl h
  | cons l ls ih =>
      intro pre e _
      cases ls with
      | nil =>
          simp only [chainStates, List.isEmpty_nil, if_true, List.length_cons,
            List.length_nil]
          rw [pathLabels_step _ _ (charOfLit l) e 0
            (getD_append_length pre [Transition.consume (charOfLit l) e] [])]
          simp [pathLabels]
      | cons l2 ls2 =>
          have hch : chainStates (l :: l2 :: ls2) pre.length e =
              [Transition.consume (charOfLit l) (pre.length + 1)] ::
                chainStates (l2 :: ls2) (pre.length + 1) e := by
            rw [chainStates.eq_2]
            rw [show (l2 :: ls2).isEmpty = false from rfl]
            simp
          rw [hch]
          rw [show (l :: l2 :: ls2).length = (l2 :: ls2).length + 1 from rfl]
          rw [pathLabels_step _ _ (charOfLit l) (pre.length + 1)
            ((l2 :: ls2).length)
            (getD_append_length pre
              [Transition.consume (charOfLit l) (pre.length + 1)]
              (chainStates (l2 :: ls2) (pre.length + 1) e))]
          have hrec := ih
            (pre ++ [[Transition.consume (charOfLit l) (pre.length + 1)]]) e
            (by simp)
          rw [show (pre ++
              [[Transition.consume (charOfLit l) (pre.length + 1)]]).length =
              pre.length + 1 from by simp] at hrec
          rw [List.append_cons pre
            [Transition.consume (charOfLit l) (pre.length + 1)]
            (chainStates (l2 :: ls2) (pre.length + 1) e)]
          rw [hrec]
          simp

/-- The automaton the source builds for a concatenation of literals
`l :: ls` from the standard fresh configuration (states 0 = start,
1 = accept): a single consuming path through fresh intermediates. -/
def litChain (l : Lit) (ls : List Lit) : Nfa :=
  ⟨[[Transition.consume (charOfLit l) (if ls.isEmpty then 1 else 2)], []] ++
    chainStates ls 2 1⟩

/-- C6: for a concatenation of `n ≥ 1` literal subtrees (written
`l :: ls`), built from the fresh two-state configuration of `main`, the
result has exactly `n` consuming transitions and no epsilon transitions,
allocates exactly `n − 1` fresh intermediate states beyond start and
accept (`n + 1` states in total), and the transitions form a single path
from start 0 to accept 1 reading the literals in order. -/
theorem literal_concat_single_path (l : Lit) (ls : List Lit) :
    regex_to_nfa ⟨[[], []]⟩ (.concat ((l :: ls).map Hir.literal)) 0 1 =
      .ok (litChain l ls) ∧
    num_states (litChain l ls) = (l :: ls).length + 1 ∧
    numConsuming (litChain l ls) = (l :: ls).length ∧
    numEpsilon (litChain l ls) = 0 ∧
    pathLabels (litChain l ls) 0 (l :: ls).length =
      some ((l :: ls).map charOfLit, 1) := by
  refine ⟨?_, ?_, ?_, ?_, ?_⟩
  · have h1 : regex_to_nfa ⟨[[], []]⟩ (.concat ((l :: ls).map Hir.literal))
        0 1 = regexConcat ⟨[[], []]⟩ ((l :: ls).map Hir.literal) 0 1 := by
      simp [regex_to_nfa]
    rw [h1, List.map_cons, show Hir.literal l :: ls.map Hir.literal =
      ((l :: ls).map Hir.literal) from rfl, regexConcat_literals]
    congr 1
    rw [appendChain_states ls l ⟨[[], []]⟩ 0 1 (by simp)]
    simp [litChain]
  · simp [litChain, num_states, chainStates_length]
  · simp [litChain, numConsuming, countConsume, chainStates_consume_sum]
    omega
  · simp [litChain, numEpsilon, countGoto, chainStates_goto_sum]
  · cases ls with
    | nil =>
        rw [show ([l] : List Lit).length = 0 + 1 from rfl]
        rw [pathLabels_step (litChain l []) 0 (charOfLit l) 1 0
          (by simp [litChain])]
        simp [pathLabels]
    | cons l2 ls2 =>
        rw [show (l :: l2 :: ls2).length = (l2 :: ls2).length + 1 from rfl]
        rw [pathLabels_step (litChain l (l2 :: ls2)) 0 (charOfLit l) 2
          ((l2 :: ls2).length) (by simp [litChain])]
        have hthis := chainStates_path (l2 :: ls2)
          [[Transition.consume (charOfLit l) 2], []] 1 (by simp)
        rw [show ([[Transition.consume (charOfLit l) 2], []] :
            List (List Transition)).length = 2 from rfl] at hthis
        have hlit : litChain l (l2 :: ls2) =
            ⟨[[Transition.consume (charOfLit l) 2], []] ++
              chainStates (l2 :: ls2) 2 1⟩ := by
          simp [litChain]
        rw [hlit, hthis]
        simp
